import Mathlib

/-
Shallow embedding of the ec2-reservations command (ec2-reservations.go).
Go maps with struct keys are modelled as association lists with unique
keys; iterating a Go map corresponds to folding over the list, and the
arbitrary Go iteration order is captured by quantifying over the list
order where it matters.  Machine integers are modelled as Int (all counts
involved are tiny, so overflow does not arise).
-/

namespace EC2Res

/-- Embeds the Go struct instanceInfo {Type, AZ string}; the field Type is
renamed Typ because Type is reserved in Lean. -/
structure instanceInfo where
  Typ : String
  AZ : String
deriving DecidableEq, Repr

/-- Association-list model of a Go map[instanceInfo]int. -/
abbrev IMap := List (instanceInfo × Int)

/-- Map read: value of key k, if present (first matching entry). -/
def lookup : IMap → instanceInfo → Option Int
  | [], _ => none
  | p :: rest, k => if p.1 = k then some p.2 else lookup rest k

/-- Go map read with zero default: m[k] is 0 when k is absent. -/
def getv (m : IMap) (k : instanceInfo) : Int := (lookup m k).getD 0

/-- Map write m[k] = v: replace the entry for k, or append a new one. -/
def setk : IMap → instanceInfo → Int → IMap
  | [], k, v => [(k, v)]
  | p :: rest, k, v => if p.1 = k then (k, v) :: rest else p :: setk rest k v

/-- Go delete(m, k). -/
def erasek : IMap → instanceInfo → IMap
  | [], _ => []
  | p :: rest, k => if p.1 = k then rest else p :: erasek rest k

/-- Passes 1 and 2 of reconcile: out[k] = -v for every running entry, then
out[k] += v for every zone-scoped reservation entry. -/
def zonePass (runningInstances azReservations : IMap) : IMap :=
  azReservations.foldl (fun o p => setk o p.1 (getv o p.1 + p.2))
    (runningInstances.map (fun p => (p.1, -p.2)))

/-- Body of the borrowing loop of reconcile for the entry (k, v) of out,
acting on the pair (out, regionReservations). -/
def borrowStep (k : instanceInfo) (v : Int) (s : IMap × IMap) : IMap × IMap :=
  if 0 ≤ v then s
  else
    let k2 : instanceInfo := ⟨k.Typ, ""⟩
    match lookup s.2 k2 with
    | none => s
    | some v2 =>
      let need := -v
      let hav := v2
      if need ≥ hav then
        (setk s.1 k (v + v2), erasek s.2 k2)
      else
        let n := hav - need
        (setk s.1 k (v + n), setk s.2 k2 (v2 - n))

/-- Pass 3 of reconcile: fold the borrowing step over the entries of out. -/
def borrowAll : List (instanceInfo × Int) → IMap × IMap → IMap × IMap
  | [], s => s
  | p :: rest, s => borrowAll rest (borrowStep p.1 p.2 s)

/-- Pass 4 of reconcile: out[k] = v for every remaining region entry. -/
def flushRegion (region : IMap) (out : IMap) : IMap :=
  region.foldl (fun o p => setk o p.1 p.2) out

/-- Embeds reconcile.  Returns the result map together with the final
state of the (mutated) regionReservations map. -/
def reconcile (runningInstances azReservations regionReservations : IMap) :
    IMap × IMap :=
  let out := zonePass runningInstances azReservations
  let s := borrowAll out (out, regionReservations)
  (flushRegion s.2 s.1, s.2)

/-- States of the three argument maps as the caller sees them after a
call to reconcile: Go passes maps by reference, and the body of reconcile
only ever writes to regionReservations (the update and delete in the
borrowing loop), so the running and zone maps come back as passed while
the region map comes back in its post-borrowing state. -/
def reconcileMaps (runningInstances azReservations regionReservations : IMap) :
    IMap × IMap × IMap :=
  (runningInstances, azReservations,
    (reconcile runningInstances azReservations regionReservations).2)

/-- Embeds the Go struct reportedInfo {Type, AZ string; Count int}. -/
structure reportedInfo where
  Typ : String
  AZ : String
  Count : Int
deriving DecidableEq, Repr

/-- Splits the reconcile result into the two report lists (the switch over
the result map in do): negative entries become uncovered on-demand rows
carrying the zone, positive entries become unused-reservation rows with
the zone left empty, zero entries are skipped. -/
def deriveReports : IMap → List reportedInfo × List reportedInfo
  | [] => ([], [])
  | p :: rest =>
    let r := deriveReports rest
    if p.2 < 0 then (⟨p.1.Typ, p.1.AZ, -p.2⟩ :: r.1, r.2)
    else if 0 < p.2 then (r.1, ⟨p.1.Typ, "", p.2⟩ :: r.2)
    else r

/-- Boolean form of the sort.SliceStable comparison used in do: strict <
on the Typ field (String order, decided through the character lists). -/
def lessTyp (a b : reportedInfo) : Bool := decide (a.Typ.toList < b.Typ.toList)

/-- Stable insertion of x into an already sorted list: x moves past
exactly the rows whose type is strictly smaller, so rows of equal type
keep their original relative order. -/
def insertRep (x : reportedInfo) : List reportedInfo → List reportedInfo
  | [] => [x]
  | y :: ys => if lessTyp y x then y :: insertRep x ys else x :: y :: ys

/-- Embeds sort.SliceStable with the less-by-Typ comparison: a stable
insertion sort. -/
def sortByTyp : List reportedInfo → List reportedInfo
  | [] => []
  | x :: xs => insertRep x (sortByTyp xs)

/-- Embeds the report-writing tail of do: a header line precedes each
non-empty section; rows are modelled as the tab-separated strings handed
to the tabwriter. -/
def renderLines (onDemandInstances unusedReservations : List reportedInfo) :
    List String :=
  (if onDemandInstances.length > 0 then ["On-demand EC2 instances:"] else []) ++
  onDemandInstances.map (fun v => v.Typ ++ "\t" ++ toString v.Count ++ "\t" ++ v.AZ) ++
  (if unusedReservations.length > 0 then ["Unused reservations:"] else []) ++
  unusedReservations.map (fun v => v.Typ ++ "\t" ++ toString v.Count)

/-- Running-instance record as consumed by do: instance type and placement
availability zone of one running instance. -/
structure instRecord where
  InstanceType : String
  AvailabilityZone : String
deriving DecidableEq, Repr

/-- Reserved-instances record as consumed by do: scope discriminator,
instance type, availability zone (meaningful only for AZ scope), count. -/
structure riRecord where
  Scope : String
  InstanceType : String
  AvailabilityZone : String
  InstanceCount : Int
deriving DecidableEq, Repr

/-- Embeds the runningInstances accumulation loop of do. -/
def buildRunning (insts : List instRecord) : IMap :=
  insts.foldl (fun m r =>
    let ii : instanceInfo := ⟨r.InstanceType, r.AvailabilityZone⟩
    setk m ii (getv m ii + 1)) []

/-- Go %q quoting of a plain string (scope values need no escaping). -/
def quoteGo (s : String) : String := "\"" ++ s ++ "\""

/-- Embeds the reservation-classification loop of do: Region records go to
the region map keyed by type only, Availability Zone records to the AZ
map, and any other scope aborts with the unknown-scope error. -/
def classifyReservations : List riRecord → IMap → IMap → Except String (IMap × IMap)
  | [], az, reg => .ok (az, reg)
  | r :: rs, az, reg =>
    if r.Scope = "Region" then
      let ii : instanceInfo := ⟨r.InstanceType, ""⟩
      classifyReservations rs az (setk reg ii (getv reg ii + r.InstanceCount))
    else if r.Scope = "Availability Zone" then
      let ii : instanceInfo := ⟨r.InstanceType, r.AvailabilityZone⟩
      classifyReservations rs (setk az ii (getv az ii + r.InstanceCount)) reg
    else
      .error ("unknown reservation scope: " ++ quoteGo r.Scope)

/-- Pure core of do: from the fetched running instances and reservation
records to the lines written to the output stream, or the error that
aborts the run before anything is written. -/
def doPure (insts : List instRecord) (ris : List riRecord) :
    Except String (List String) :=
  let runningInstances := buildRunning insts
  match classifyReservations ris [] [] with
  | .error e => .error e
  | .ok (azReservations, regionReservations) =>
    let res := (reconcile runningInstances azReservations regionReservations).1
    let rep := deriveReports res
    .ok (renderLines (sortByTyp rep.1) (sortByTyp rep.2))

/-- Embeds main: the lines written to stdout and the process exit code
(errors go to stderr and exit with code 1, leaving stdout empty). -/
def mainModel (insts : List instRecord) (ris : List riRecord) :
    List String × Nat :=
  match doPure insts ris with
  | .error _ => ([], 1)
  | .ok ls => (ls, 0)

/-- Go-map well-formedness: each key appears at most once. -/
def keysNodup (m : IMap) : Prop := (m.map Prod.fst).Nodup

/-- All counts of the map are nonnegative. -/
def nonnegMap (m : IMap) : Prop := ∀ p ∈ m, 0 ≤ p.2

/-- Every key of the map carries a non-empty availability zone. -/
def zonesPopulated (m : IMap) : Prop := ∀ p ∈ m, p.1.AZ ≠ ""

/-- Every key of the map carries an empty availability zone. -/
def zonesEmpty (m : IMap) : Prop := ∀ p ∈ m, p.1.AZ = ""

instance (m : IMap) : Decidable (keysNodup m) :=
  inferInstanceAs (Decidable (m.map Prod.fst).Nodup)

instance (m : IMap) : Decidable (nonnegMap m) :=
  inferInstanceAs (Decidable (∀ p ∈ m, 0 ≤ p.2))

instance (m : IMap) : Decidable (zonesPopulated m) :=
  inferInstanceAs (Decidable (∀ p ∈ m, p.1.AZ ≠ ""))

instance (m : IMap) : Decidable (zonesEmpty m) :=
  inferInstanceAs (Decidable (∀ p ∈ m, p.1.AZ = ""))

/-- Sum of all values of the map. -/
def sumv (m : IMap) : Int := (m.map Prod.snd).sum

/-- Total uncovered count: sum of magnitudes of the negative entries. -/
def uncoveredTotal (m : IMap) : Int :=
  ((m.filter (fun p => p.2 < 0)).map (fun p => -p.2)).sum

/-- Total unused count: sum of the positive entries. -/
def unusedTotal (m : IMap) : Int :=
  ((m.filter (fun p => 0 < p.2)).map Prod.snd).sum

/-- Writing key k and reading it back gives the written value. -/
theorem lookup_setk_self (m : IMap) (k : instanceInfo) (v : Int) :
    lookup (setk m k v) k = some v := by
  induction m with
  | nil => simp [setk, lookup]
  | cons p rest ih =>
    by_cases h : p.1 = k
    · simp [setk, h, lookup]
    · simp [setk, h, lookup, ih]

/-- Writing key k leaves every other key unchanged. -/
theorem lookup_setk_ne (m : IMap) (k k' : instanceInfo) (v : Int) (h : k' ≠ k) :
    lookup (setk m k v) k' = lookup m k' := by
  induction m with
  | nil => simp [setk, lookup, Ne.symm h]
  | cons p rest ih =>
    by_cases hp : p.1 = k
    · subst hp
      simp [setk, lookup, Ne.symm h]
    · by_cases hp' : p.1 = k'
      · simp [setk, lookup, hp', h]
      · simp [setk, hp, lookup, hp', ih]

/-- Deleting key k leaves every other key unchanged. -/
theorem lookup_erasek_ne (m : IMap) (k k' : instanceInfo) (h : k' ≠ k) :
    lookup (erasek m k) k' = lookup m k' := by
  induction m with
  | nil => simp [erasek]
  | cons p rest ih =>
    by_cases hp : p.1 = k
    · subst hp
      simp [erasek, lookup, Ne.symm h]
    · simp [erasek, hp, lookup, ih]

/-- Keys absent from the key list have no lookup value. -/
theorem lookup_eq_none (m : IMap) (k : instanceInfo)
    (h : k ∉ m.map Prod.fst) : lookup m k = none := by
  induction m with
  | nil => simp [lookup]
  | cons p rest ih =>
    simp only [List.map_cons, List.mem_cons] at h
    push_neg at h
    simp [lookup, Ne.symm h.1, ih h.2]

/-- In a map with no duplicate keys, each entry is what lookup returns. -/
theorem lookup_self_of_nodup (m : IMap) (p : instanceInfo × Int)
    (hm : keysNodup m) (hp : p ∈ m) : lookup m p.1 = some p.2 := by
  induction m with
  | nil => cases hp
  | cons q rest ih =>
    simp only [keysNodup, List.map_cons, List.nodup_cons] at hm
    rcases List.mem_cons.mp hp with h | h
    · subst h
      simp [lookup]
    · have hne : q.1 ≠ p.1 := by
        intro he
        exact hm.1 (he ▸ List.mem_map_of_mem Prod.fst h)
      simp [lookup, hne, ih hm.2 h]

/-- Writing a key keeps the key list free of duplicates. -/
theorem keysNodup_setk (m : IMap) (k : instanceInfo) (v : Int)
    (hm : keysNodup m) : keysNodup (setk m k v) := by
  induction m with
  | nil => simp [setk, keysNodup]
  | cons p rest ih =>
    simp only [keysNodup, List.map_cons, List.nodup_cons] at hm
    by_cases hp : p.1 = k
    · subst hp
      simpa [setk, keysNodup] using hm
    · have hk : (setk rest k v).map Prod.fst = rest.map Prod.fst ∨
          (setk rest k v).map Prod.fst = rest.map Prod.fst ++ [k] := by
        clear ih hm
        induction rest with
        | nil => simp [setk]
        | cons q qs ihq =>
          by_cases hq : q.1 = k
          · subst hq
            simp [setk]
          · rcases ihq with h | h <;> simp [setk, hq, h]
      simp only [keysNodup, setk, hp, if_false, List.map_cons, List.nodup_cons]
      refine ⟨?_, ih hm.2⟩
      rcases hk with h | h
      · rw [h]; exact hm.1
      · rw [h]
        simp only [List.mem_append, List.mem_singleton]
        rintro (h1 | h1)
        · exact hm.1 h1
        · exact hp h1

/-- Membership in the key list after a write. -/
theorem mem_keys_setk (m : IMap) (k k' : instanceInfo) (v : Int)
    (h : k' ∈ (setk m k v).map Prod.fst) :
    k' ∈ m.map Prod.fst ∨ k' = k := by
  induction m with
  | nil => simpa [setk] using h
  | cons p rest ih =>
    by_cases hp : p.1 = k
    · subst hp
      simp only [setk, if_true, eq_self_iff_true, List.map_cons, List.mem_cons] at h
      rcases h with h | h
      · exact Or.inr h
      · exact Or.inl (by simp only [List.map_cons, List.mem_cons]; exact Or.inr h)
    · simp only [setk, hp, if_false, List.map_cons, List.mem_cons] at h
      rcases h with h | h
      · exact Or.inl (by simp [h])
      · rcases ih h with h1 | h1
        · exact Or.inl (List.mem_cons_of_mem _ h1)
        · exact Or.inr h1

/-- Sum over a cons cell. -/
theorem sumv_cons (p : instanceInfo × Int) (m : IMap) :
    sumv (p :: m) = p.2 + sumv m := by
  simp [sumv]

/-- Writing over an existing key changes the sum by the difference. -/
theorem sumv_setk_of_some (m : IMap) (k : instanceInfo) (v x : Int)
    (h : lookup m k = some x) : sumv (setk m k v) = sumv m - x + v := by
  induction m with
  | nil => simp [lookup] at h
  | cons p rest ih =>
    by_cases hp : p.1 = k
    · subst hp
      simp only [lookup, if_true, eq_self_iff_true, Option.some_inj] at h
      subst h
      simp [setk, sumv_cons]
      ring
    · simp only [lookup, hp, if_false] at h
      simp only [setk, hp, if_false]
      rw [sumv_cons, sumv_cons, ih h]
      ring

/-- Writing an absent key appends the new entry at the end. -/
theorem setk_of_none (m : IMap) (k : instanceInfo) (v : Int)
    (h : lookup m k = none) : setk m k v = m ++ [(k, v)] := by
  induction m with
  | nil => simp [setk]
  | cons p rest ih =>
    by_cases hp : p.1 = k
    · simp [lookup, hp] at h
    · simp only [lookup, hp, if_false] at h
      simp [setk, hp, ih h]

/-- Sum over appending a single entry. -/
theorem sumv_append_single (m : IMap) (k : instanceInfo) (v : Int) :
    sumv (m ++ [(k, v)]) = sumv m + v := by
  simp [sumv]

/-- Deleting an existing key removes its value from the sum. -/
theorem sumv_erasek_of_some (m : IMap) (k : instanceInfo) (x : Int)
    (h : lookup m k = some x) : sumv (erasek m k) = sumv m - x := by
  induction m with
  | nil => simp [lookup] at h
  | cons p rest ih =>
    by_cases hp : p.1 = k
    · subst hp
      simp only [lookup, if_true, eq_self_iff_true, Option.some_inj] at h
      subst h
      simp [erasek, sumv_cons]
    · simp only [lookup, hp, if_false] at h
      simp only [erasek, hp, if_false]
      rw [sumv_cons, sumv_cons, ih h]
      ring

/-- Keys surviving a delete were keys before. -/
theorem mem_keys_erasek (m : IMap) (k k' : instanceInfo)
    (h : k' ∈ (erasek m k).map Prod.fst) : k' ∈ m.map Prod.fst := by
  induction m with
  | nil => simp [erasek] at h
  | cons p rest ih =>
    by_cases hp : p.1 = k
    · simp only [erasek, hp, if_true, eq_self_iff_true] at h
      simp only [List.map_cons, List.mem_cons]
      exact Or.inr h
    · simp only [erasek, hp, if_false, List.map_cons, List.mem_cons] at h
      simp only [List.map_cons, List.mem_cons]
      rcases h with h | h
      · exact Or.inl h
      · exact Or.inr (ih h)

/-- Deleting a key keeps the key list free of duplicates. -/
theorem keysNodup_erasek (m : IMap) (k : instanceInfo)
    (hm : keysNodup m) : keysNodup (erasek m k) := by
  induction m with
  | nil => simpa [erasek] using hm
  | cons p rest ih =>
    simp only [keysNodup, List.map_cons, List.nodup_cons] at hm
    by_cases hp : p.1 = k
    · simpa [erasek, hp, keysNodup] using hm.2
    · simp only [erasek, hp, if_false, keysNodup, List.map_cons, List.nodup_cons]
      exact ⟨fun hmem => hm.1 (mem_keys_erasek rest k p.1 hmem), ih hm.2⟩

/-- One iteration of the zone-reservation loop adds its count to the sum. -/
theorem sumv_addStep (o : IMap) (k : instanceInfo) (v : Int) :
    sumv (setk o k (getv o k + v)) = sumv o + v := by
  cases h : lookup o k with
  | none =>
    rw [setk_of_none o k _ h, sumv_append_single]
    simp [getv, h]
  | some x =>
    rw [sumv_setk_of_some o k _ x h]
    simp [getv, h]
    ring

/-- Sum of the seeded deficits: negated sum of the running counts. -/
theorem sumv_negmap (r : IMap) :
    sumv (r.map (fun p => (p.1, -p.2))) = -sumv r := by
  induction r with
  | nil => simp [sumv]
  | cons p rest ih =>
    simp only [List.map_cons, sumv_cons, ih]
    ring

/-- Sum after the zone pass: zone reservations minus running counts. -/
theorem sumv_zonePass (runningInstances azReservations : IMap) :
    sumv (zonePass runningInstances azReservations) =
      sumv azReservations - sumv runningInstances := by
  have hfold : ∀ (az : IMap) (base : IMap),
      sumv (az.foldl (fun o p => setk o p.1 (getv o p.1 + p.2)) base) =
        sumv base + sumv az := by
    intro az
    induction az with
    | nil => intro base; simp [sumv]
    | cons p rest ih =>
      intro base
      rw [List.foldl_cons, ih, sumv_addStep, sumv_cons]
      ring
  rw [zonePass, hfold, sumv_negmap]
  ring

/-- Keys with a lookup value are in the key list. -/
theorem lookup_some_mem_keys (m : IMap) (k : instanceInfo) (x : Int)
    (h : lookup m k = some x) : k ∈ m.map Prod.fst := by
  induction m with
  | nil => simp [lookup] at h
  | cons p rest ih =>
    by_cases hp : p.1 = k
    · simp [hp]
    · simp only [lookup, hp, if_false] at h
      simp only [List.map_cons, List.mem_cons]
      exact Or.inr (ih h)

/-- Full characterization of lookup after a write. -/
theorem lookup_setk (m : IMap) (k k' : instanceInfo) (v : Int) :
    lookup (setk m k v) k' = if k' = k then some v else lookup m k' := by
  by_cases h : k' = k
  · subst h
    simp [lookup_setk_self]
  · simp [h, lookup_setk_ne m k k' v h]

/-- Entries with value ≥ 0 are skipped by the borrowing loop. -/
theorem borrowStep_of_nonneg (k : instanceInfo) (v : Int) (s : IMap × IMap)
    (h : 0 ≤ v) : borrowStep k v s = s := by
  simp [borrowStep, h]

/-- The borrowing step only ever writes the out map at its own key. -/
theorem borrowStep_fst_lookup_ne (k : instanceInfo) (v : Int) (s : IMap × IMap)
    (k' : instanceInfo) (h : k' ≠ k) :
    lookup (borrowStep k v s).1 k' = lookup s.1 k' := by
  by_cases hv : 0 ≤ v
  · simp [borrowStep, hv]
  · cases hl : lookup s.2 ⟨k.Typ, ""⟩ with
    | none => simp [borrowStep, hv, hl]
    | some v2 =>
      by_cases hn : -v ≥ v2
      · simp [borrowStep, hv, hl, hn, lookup_setk_ne _ _ _ _ h]
      · simp [borrowStep, hv, hn, hl, lookup_setk_ne _ _ _ _ h]

/-- The borrowing step moves value between the out map and the pool:
their combined sum is unchanged. -/
theorem borrowStep_sum (k : instanceInfo) (v : Int) (s : IMap × IMap)
    (hk : lookup s.1 k = some v) :
    sumv (borrowStep k v s).1 + sumv (borrowStep k v s).2 =
      sumv s.1 + sumv s.2 := by
  by_cases hv : 0 ≤ v
  · simp [borrowStep, hv]
  · cases hl : lookup s.2 ⟨k.Typ, ""⟩ with
    | none => simp [borrowStep, hv, hl]
    | some v2 =>
      by_cases hn : -v ≥ v2
      · simp only [borrowStep, hv, if_false, hl, hn, if_true, eq_self_iff_true]
        rw [sumv_setk_of_some s.1 k _ v hk, sumv_erasek_of_some s.2 _ v2 hl]
        ring
      · simp only [borrowStep, hv, if_false, hl, hn]
        rw [sumv_setk_of_some s.1 k _ v hk, sumv_setk_of_some s.2 _ _ v2 hl]
        ring

/-- Keys of the out map after a borrowing step. -/
theorem mem_keys_borrowStep_fst (k : instanceInfo) (v : Int) (s : IMap × IMap)
    (k' : instanceInfo) (h : k' ∈ (borrowStep k v s).1.map Prod.fst) :
    k' ∈ s.1.map Prod.fst ∨ k' = k := by
  by_cases hv : 0 ≤ v
  · rw [borrowStep_of_nonneg k v s hv] at h
    exact Or.inl h
  · cases hl : lookup s.2 ⟨k.Typ, ""⟩ with
    | none =>
      simp only [borrowStep, hv, if_false, hl] at h
      exact Or.inl h
    | some v2 =>
      by_cases hn : -v ≥ v2
      · simp only [borrowStep, hv, if_false, hl, hn, if_true, eq_self_iff_true] at h
        exact mem_keys_setk s.1 k k' _ h
      · simp only [borrowStep, hv, if_false, hl, hn] at h
        exact mem_keys_setk s.1 k k' _ h

/-- Keys of the pool after a borrowing step were pool keys before. -/
theorem mem_keys_borrowStep_snd (k : instanceInfo) (v : Int) (s : IMap × IMap)
    (k' : instanceInfo) (h : k' ∈ (borrowStep k v s).2.map Prod.fst) :
    k' ∈ s.2.map Prod.fst := by
  by_cases hv : 0 ≤ v
  · rw [borrowStep_of_nonneg k v s hv] at h
    exact h
  · cases hl : lookup s.2 ⟨k.Typ, ""⟩ with
    | none =>
      simpa only [borrowStep, hv, if_false, hl] using h
    | some v2 =>
      by_cases hn : -v ≥ v2
      · simp only [borrowStep, hv, if_false, hl, hn, if_true, eq_self_iff_true] at h
        exact mem_keys_erasek s.2 _ k' h
      · simp only [borrowStep, hv, if_false, hl, hn] at h
        rcases mem_keys_setk s.2 _ k' _ h with h1 | h1
        · exact h1
        · rw [h1]
          exact lookup_some_mem_keys s.2 _ v2 hl

/-- The borrowing step keeps the pool key list free of duplicates. -/
theorem keysNodup_borrowStep_snd (k : instanceInfo) (v : Int) (s : IMap × IMap)
    (hm : keysNodup s.2) : keysNodup (borrowStep k v s).2 := by
  by_cases hv : 0 ≤ v
  · rw [borrowStep_of_nonneg k v s hv]
    exact hm
  · cases hl : lookup s.2 ⟨k.Typ, ""⟩ with
    | none => simpa only [borrowStep, hv, if_false, hl] using hm
    | some v2 =>
      by_cases hn : -v ≥ v2
      · simp only [borrowStep, hv, if_false, hl, hn, if_true, eq_self_iff_true]
        exact keysNodup_erasek s.2 _ hm
      · simp only [borrowStep, hv, if_false, hl, hn]
        exact keysNodup_setk s.2 _ _ hm

/-- The borrowing pass leaves the out value of key k' alone when every
iterated entry at k' is nonnegative. -/
theorem borrowAll_fst_lookup_of_nonneg (l : List (instanceInfo × Int))
    (s : IMap × IMap) (k' : instanceInfo)
    (h : ∀ p ∈ l, p.1 = k' → 0 ≤ p.2) :
    lookup (borrowAll l s).1 k' = lookup s.1 k' := by
  induction l generalizing s with
  | nil => rfl
  | cons p rest ih =>
    rw [borrowAll]
    rw [ih _ (fun q hq => h q (List.mem_cons_of_mem _ hq))]
    by_cases hp : p.1 = k'
    · rw [borrowStep_of_nonneg _ _ _ (h p (List.mem_cons_self p rest) hp)]
    · exact borrowStep_fst_lookup_ne p.1 p.2 s k' (Ne.symm hp)

/-- The borrowing pass moves value between out map and pool: the combined
sum is unchanged (the entries iterated over are the current out entries). -/
theorem borrowAll_sum (l : List (instanceInfo × Int)) :
    ∀ s : IMap × IMap, (l.map Prod.fst).Nodup →
    (∀ p ∈ l, lookup s.1 p.1 = some p.2) →
    sumv (borrowAll l s).1 + sumv (borrowAll l s).2 = sumv s.1 + sumv s.2 := by
  induction l with
  | nil => intro s _ _; rfl
  | cons p rest ih =>
    intro s hnd hself
    simp only [List.map_cons, List.nodup_cons] at hnd
    rw [borrowAll]
    have hrest : ∀ q ∈ rest, lookup (borrowStep p.1 p.2 s).1 q.1 = some q.2 := by
      intro q hq
      have hne : q.1 ≠ p.1 := by
        intro he
        exact hnd.1 (he ▸ List.mem_map_of_mem Prod.fst hq)
      rw [borrowStep_fst_lookup_ne p.1 p.2 s q.1 hne]
      exact hself q (List.mem_cons_of_mem _ hq)
    rw [ih _ hnd.2 hrest]
    exact borrowStep_sum p.1 p.2 s (hself p (List.mem_cons_self p rest))

/-- Keys of the out map after the borrowing pass. -/
theorem mem_keys_borrowAll_fst (l : List (instanceInfo × Int)) :
    ∀ (s : IMap × IMap) (k' : instanceInfo),
    k' ∈ (borrowAll l s).1.map Prod.fst →
    k' ∈ s.1.map Prod.fst ∨ k' ∈ l.map Prod.fst := by
  induction l with
  | nil => intro s k' h; exact Or.inl h
  | cons p rest ih =>
    intro s k' h
    rw [borrowAll] at h
    rcases ih _ k' h with h1 | h1
    · rcases mem_keys_borrowStep_fst p.1 p.2 s k' h1 with h2 | h2
      · exact Or.inl h2
      · exact Or.inr (by simp [h2])
    · exact Or.inr (List.mem_cons_of_mem _ h1)

/-- Keys of the pool after the borrowing pass were pool keys before. -/
theorem mem_keys_borrowAll_snd (l : List (instanceInfo × Int)) :
    ∀ (s : IMap × IMap) (k' : instanceInfo),
    k' ∈ (borrowAll l s).2.map Prod.fst → k' ∈ s.2.map Prod.fst := by
  induction l with
  | nil => intro s k' h; exact h
  | cons p rest ih =>
    intro s k' h
    rw [borrowAll] at h
    exact mem_keys_borrowStep_snd p.1 p.2 s k' (ih _ k' h)

/-- The borrowing pass keeps the pool key list free of duplicates. -/
theorem keysNodup_borrowAll_snd (l : List (instanceInfo × Int)) :
    ∀ s : IMap × IMap, keysNodup s.2 → keysNodup (borrowAll l s).2 := by
  induction l with
  | nil => intro s h; exact h
  | cons p rest ih =>
    intro s h
    rw [borrowAll]
    exact ih _ (keysNodup_borrowStep_snd p.1 p.2 s h)

/-- Flushing pool entries whose keys are disjoint from the out map adds
their values to the sum. -/
theorem sumv_flushRegion (region : IMap) :
    ∀ out : IMap, keysNodup region →
    (∀ k ∈ region.map Prod.fst, k ∉ out.map Prod.fst) →
    sumv (flushRegion region out) = sumv out + sumv region := by
  induction region with
  | nil => intro out _ _; simp [flushRegion, sumv]
  | cons p rest ih =>
    intro out hnd hdisj
    simp only [keysNodup, List.map_cons, List.nodup_cons] at hnd
    have habs : lookup out p.1 = none :=
      lookup_eq_none out p.1 (hdisj p.1 (by simp))
    have hstep : setk out p.1 p.2 = out ++ [(p.1, p.2)] :=
      setk_of_none out p.1 p.2 habs
    have hdisj2 : ∀ k ∈ rest.map Prod.fst,
        k ∉ (out ++ [(p.1, p.2)]).map Prod.fst := by
      intro k hk
      simp only [List.map_append, List.mem_append, List.map_cons,
        List.map_nil, List.mem_singleton]
      rintro (h1 | h1)
      · exact hdisj k (by simp [hk]) h1
      · exact hnd.1 (h1 ▸ hk)
    have : flushRegion (p :: rest) out = flushRegion rest (out ++ [(p.1, p.2)]) := by
      simp only [flushRegion, List.foldl_cons, hstep]
    rw [this, ih _ hnd.2 hdisj2, sumv_append_single, sumv_cons]
    ring

/-- Flushing entries with keys different from k' does not change the
lookup at k'. -/
theorem lookup_flushRegion_ne (region : IMap) :
    ∀ (out : IMap) (k' : instanceInfo), (∀ p ∈ region, p.1 ≠ k') →
    lookup (flushRegion region out) k' = lookup out k' := by
  induction region with
  | nil => intro out k' _; rfl
  | cons p rest ih =>
    intro out k' h
    simp only [flushRegion, List.foldl_cons]
    rw [show (rest.foldl (fun o q => setk o q.1 q.2) (setk out p.1 p.2)) =
        flushRegion rest (setk out p.1 p.2) from rfl]
    rw [ih _ k' (fun q hq => h q (List.mem_cons_of_mem _ hq))]
    exact lookup_setk_ne out p.1 k' p.2 (Ne.symm (h p (List.mem_cons_self p rest)))

/-- Flushing a nonnegative pool preserves nonnegativity of the value that
lookup finds at any fixed key. -/
theorem lookup_flushRegion_nonneg (region : IMap) :
    ∀ (out : IMap) (k' : instanceInfo), nonnegMap region →
    (∀ x, lookup out k' = some x → 0 ≤ x) →
    ∀ x, lookup (flushRegion region out) k' = some x → 0 ≤ x := by
  induction region with
  | nil => intro out k' _ hout x hx; exact hout x hx
  | cons p rest ih =>
    intro out k' hnn hout x hx
    simp only [flushRegion, List.foldl_cons] at hx
    refine ih (setk out p.1 p.2) k' (fun q hq => hnn q (List.mem_cons_of_mem _ hq))
      ?_ x hx
    intro y hy
    rw [lookup_setk out p.1 k' p.2] at hy
    by_cases hk : k' = p.1
    · rw [if_pos hk] at hy
      cases hy
      exact hnn p (List.mem_cons_self p rest)
    · rw [if_neg hk] at hy
      exact hout y hy

/-- Uncovered entries counted with positive sign, helper unfolding. -/
theorem uncoveredTotal_cons (p : instanceInfo × Int) (m : IMap) :
    uncoveredTotal (p :: m) =
      (if p.2 < 0 then -p.2 else 0) + uncoveredTotal m := by
  by_cases h : p.2 < 0 <;> simp [uncoveredTotal, List.filter_cons, h]

/-- Unused entries counted with positive sign, helper unfolding. -/
theorem unusedTotal_cons (p : instanceInfo × Int) (m : IMap) :
    unusedTotal (p :: m) =
      (if 0 < p.2 then p.2 else 0) + unusedTotal m := by
  by_cases h : 0 < p.2 <;> simp [unusedTotal, List.filter_cons, h]

/-- In any map, total uncovered minus total unused is the negated sum of
all values (zero entries contribute nothing). -/
theorem uncovered_sub_unused (m : IMap) :
    uncoveredTotal m - unusedTotal m = -sumv m := by
  induction m with
  | nil => simp [uncoveredTotal, unusedTotal, sumv]
  | cons p rest ih =>
    rw [uncoveredTotal_cons, unusedTotal_cons, sumv_cons]
    rcases lt_trichotomy p.2 0 with h | h | h
    · rw [if_pos h, if_neg (by linarith)]
      linarith
    · rw [if_neg (by simp [h]), if_neg (by simp [h])]
      linarith
    · rw [if_neg (by linarith), if_pos h]
      linarith

/-- Lookup on a cons cell, value form. -/
theorem getv_cons (p : instanceInfo × Int) (m : IMap) (k : instanceInfo) :
    getv (p :: m) k = if p.1 = k then p.2 else getv m k := by
  by_cases h : p.1 = k <;> simp [getv, lookup, h]

/-- Seeding deficits negates the lookup value. -/
theorem lookup_negmap (r : IMap) (k : instanceInfo) :
    lookup (r.map (fun p => (p.1, -p.2))) k =
      Option.map (fun x => -x) (lookup r k) := by
  induction r with
  | nil => simp [lookup]
  | cons p rest ih =>
    by_cases h : p.1 = k <;> simp [lookup, h, ih]

/-- The zone pass keeps the out key list free of duplicates when the
running map has no duplicate keys. -/
theorem keysNodup_zonePass (runningInstances azReservations : IMap)
    (h : keysNodup runningInstances) :
    keysNodup (zonePass runningInstances azReservations) := by
  have hfold : ∀ (az : IMap) (base : IMap), keysNodup base →
      keysNodup (az.foldl (fun o p => setk o p.1 (getv o p.1 + p.2)) base) := by
    intro az
    induction az with
    | nil => intro base hb; exact hb
    | cons p rest ih =>
      intro base hb
      rw [List.foldl_cons]
      exact ih _ (keysNodup_setk base p.1 _ hb)
  refine hfold azReservations _ ?_
  have : (runningInstances.map (fun p => (p.1, -p.2))).map Prod.fst =
      runningInstances.map Prod.fst := by
    simp [Function.comp]
  simpa [keysNodup, this] using h

/-- Out keys after the zone pass come from the running or zone maps. -/
theorem mem_keys_zonePass (runningInstances azReservations : IMap)
    (k : instanceInfo)
    (h : k ∈ (zonePass runningInstances azReservations).map Prod.fst) :
    k ∈ runningInstances.map Prod.fst ∨ k ∈ azReservations.map Prod.fst := by
  have hfold : ∀ (az : IMap) (base : IMap),
      k ∈ ((az.foldl (fun o p => setk o p.1 (getv o p.1 + p.2)) base).map Prod.fst) →
      k ∈ base.map Prod.fst ∨ k ∈ az.map Prod.fst := by
    intro az
    induction az with
    | nil => intro base hb; exact Or.inl hb
    | cons p rest ih =>
      intro base hb
      rw [List.foldl_cons] at hb
      rcases ih _ hb with h1 | h1
      · rcases mem_keys_setk base p.1 k _ h1 with h2 | h2
        · exact Or.inl h2
        · exact Or.inr (by simp [h2])
      · exact Or.inr (List.mem_cons_of_mem _ h1)
  rcases hfold azReservations _ h with h1 | h1
  · left
    rcases List.mem_map.mp h1 with ⟨q, hq, hqk⟩
    rcases List.mem_map.mp hq with ⟨p, hp, hpq⟩
    refine List.mem_map.mpr ⟨p, hp, ?_⟩
    rw [← hqk, ← hpq]
  · exact Or.inr h1

/-- Value at key k after the zone pass: zone count minus running count
(when the zone map has no duplicate keys). -/
theorem getv_zonePass (runningInstances azReservations : IMap)
    (hnd : keysNodup azReservations) (k : instanceInfo) :
    getv (zonePass runningInstances azReservations) k =
      getv azReservations k - getv runningInstances k := by
  have hfold : ∀ (az : IMap), keysNodup az → ∀ (base : IMap),
      getv (az.foldl (fun o p => setk o p.1 (getv o p.1 + p.2)) base) k =
        getv base k + getv az k := by
    intro az
    induction az with
    | nil => intro _ base; simp [getv, lookup]
    | cons p rest ih =>
      intro hnda base
      simp only [keysNodup, List.map_cons, List.nodup_cons] at hnda
      rw [List.foldl_cons, ih hnda.2, getv_cons]
      by_cases hp : p.1 = k
      · subst hp
        have h0 : getv rest p.1 = 0 := by
          simp [getv, lookup_eq_none rest p.1 hnda.1]
        have h1 : getv (setk base p.1 (getv base p.1 + p.2)) p.1 =
            getv base p.1 + p.2 := by
          simp [getv, lookup_setk_self]
        rw [h0, h1, if_pos rfl]
        ring
      · have h1 : getv (setk base p.1 (getv base p.1 + p.2)) k = getv base k := by
          simp [getv, lookup_setk_ne base p.1 k _ (Ne.symm hp)]
        rw [h1, if_neg hp]
  have hbase : getv (runningInstances.map (fun p => (p.1, -p.2))) k =
      -(getv runningInstances k) := by
    cases h : lookup runningInstances k <;> simp [getv, lookup_negmap, h]
  rw [zonePass, hfold azReservations hnd, hbase]
  ring

/-- Keys of a zones-empty map carry empty zones. -/
theorem key_az_of_zonesEmpty (m : IMap) (hm : zonesEmpty m) (k : instanceInfo)
    (h : k ∈ m.map Prod.fst) : k.AZ = "" := by
  rcases List.mem_map.mp h with ⟨p, hp, hpk⟩
  rw [← hpk]
  exact hm p hp

/-- Keys of a zones-populated map carry non-empty zones. -/
theorem key_az_of_zonesPopulated (m : IMap) (hm : zonesPopulated m)
    (k : instanceInfo) (h : k ∈ m.map Prod.fst) : k.AZ ≠ "" := by
  rcases List.mem_map.mp h with ⟨p, hp, hpk⟩
  rw [← hpk]
  exact hm p hp

/-- C2: for every well-formed input (nonnegative counts, zones populated
in the running and zone-reservation keys, zones empty in the region keys),
total uncovered minus total unused in the reconcile result equals total
running minus total reservations (zone plus region). -/
theorem claim_C2_conservation
    (runningInstances azReservations regionReservations : IMap)
    (hnd1 : keysNodup runningInstances) (hnd2 : keysNodup azReservations)
    (hnd3 : keysNodup regionReservations)
    (hnn1 : nonnegMap runningInstances) (hnn2 : nonnegMap azReservations)
    (hnn3 : nonnegMap regionReservations)
    (hz1 : zonesPopulated runningInstances) (hz2 : zonesPopulated azReservations)
    (hz3 : zonesEmpty regionReservations) :
    uncoveredTotal (reconcile runningInstances azReservations regionReservations).1 -
      unusedTotal (reconcile runningInstances azReservations regionReservations).1 =
      sumv runningInstances - (sumv azReservations + sumv regionReservations) := by
  have hres : (reconcile runningInstances azReservations regionReservations).1 =
      flushRegion
        (borrowAll (zonePass runningInstances azReservations)
          (zonePass runningInstances azReservations, regionReservations)).2
        (borrowAll (zonePass runningInstances azReservations)
          (zonePass runningInstances azReservations, regionReservations)).1 := rfl
  have hndout : keysNodup (zonePass runningInstances azReservations) :=
    keysNodup_zonePass runningInstances azReservations hnd1
  have hself : ∀ p ∈ zonePass runningInstances azReservations,
      lookup (zonePass runningInstances azReservations) p.1 = some p.2 :=
    fun p hp => lookup_self_of_nodup _ p hndout hp
  have hsum_borrow :
      sumv (borrowAll (zonePass runningInstances azReservations)
        (zonePass runningInstances azReservations, regionReservations)).1 +
      sumv (borrowAll (zonePass runningInstances azReservations)
        (zonePass runningInstances azReservations, regionReservations)).2 =
      sumv (zonePass runningInstances azReservations) + sumv regionReservations :=
    borrowAll_sum _ _ hndout hself
  have hnd_s2 : keysNodup (borrowAll (zonePass runningInstances azReservations)
      (zonePass runningInstances azReservations, regionReservations)).2 :=
    keysNodup_borrowAll_snd _ _ hnd3
  have hdisj : ∀ k ∈ ((borrowAll (zonePass runningInstances azReservations)
      (zonePass runningInstances azReservations, regionReservations)).2.map Prod.fst),
      k ∉ ((borrowAll (zonePass runningInstances azReservations)
      (zonePass runningInstances azReservations, regionReservations)).1.map Prod.fst) := by
    intro k hk hmem
    have hkempty : k.AZ = "" :=
      key_az_of_zonesEmpty regionReservations hz3 k
        (mem_keys_borrowAll_snd _ _ k hk)
    have hkout : k ∈ (zonePass runningInstances azReservations).map Prod.fst := by
      rcases mem_keys_borrowAll_fst _ _ k hmem with h1 | h1 <;> exact h1
    rcases mem_keys_zonePass runningInstances azReservations k hkout with h1 | h1
    · exact key_az_of_zonesPopulated runningInstances hz1 k h1 hkempty
    · exact key_az_of_zonesPopulated azReservations hz2 k h1 hkempty
  have hsum_flush := sumv_flushRegion _ _ hnd_s2 hdisj
  rw [hres, uncovered_sub_unused, hsum_flush, hsum_borrow,
    sumv_zonePass runningInstances azReservations]
  ring

/-- Witness for C2 at a concrete input. -/
theorem claim_C2_conservation_witness :
    uncoveredTotal (reconcile [((⟨"m3.medium", "us-east-1a"⟩ : instanceInfo), 3)] []
        [((⟨"m3.medium", ""⟩ : instanceInfo), 5)]).1 -
      unusedTotal (reconcile [((⟨"m3.medium", "us-east-1a"⟩ : instanceInfo), 3)] []
        [((⟨"m3.medium", ""⟩ : instanceInfo), 5)]).1 =
      sumv [((⟨"m3.medium", "us-east-1a"⟩ : instanceInfo), 3)] -
        (sumv [] + sumv [((⟨"m3.medium", ""⟩ : instanceInfo), 5)]) :=
  claim_C2_conservation _ _ _ (by decide) (by decide) (by decide) (by decide)
    (by decide) (by decide) (by decide) (by decide) (by decide)

/-- C1 (code behaviour at the spec's borrowing-correctness input): with
running = {(m3.medium, us-east-1a): 3} and a region pool of 5 for
m3.medium, the code transfers have - need = 2 instead of need = 3, so the
result keeps an uncovered entry of magnitude 1 and reports 3 unused with
the region type, and the pool retains 3 rather than have - need = 2. -/
theorem claim_C1_code_behavior :
    (reconcile [((⟨"m3.medium", "us-east-1a"⟩ : instanceInfo), 3)] []
        [((⟨"m3.medium", ""⟩ : instanceInfo), 5)]).1 =
      [((⟨"m3.medium", "us-east-1a"⟩ : instanceInfo), -1),
       ((⟨"m3.medium", ""⟩ : instanceInfo), 3)] ∧
    (reconcile [((⟨"m3.medium", "us-east-1a"⟩ : instanceInfo), 3)] []
        [((⟨"m3.medium", ""⟩ : instanceInfo), 5)]).2 =
      [((⟨"m3.medium", ""⟩ : instanceInfo), 3)] := by
  decide

/-- C3: when the deficit at key k is at least the remaining region pool
for its type (need ≥ have), the borrowing step adds the whole pool amount
to the key and deletes the region entry for the type; on the spec's
concrete example the result is the single uncovered entry
(m3.medium, us-east-1a) of magnitude 3 and no unused entry. -/
theorem claim_C3_insufficient_pool (k : instanceInfo) (v v2 : Int)
    (out region : IMap) (hv : v < 0)
    (hl : lookup region ⟨k.Typ, ""⟩ = some v2) (hpos : 0 < v2)
    (hge : -v ≥ v2) :
    borrowStep k v (out, region) =
      (setk out k (v + v2), erasek region ⟨k.Typ, ""⟩) ∧
    (reconcile [((⟨"m3.medium", "us-east-1a"⟩ : instanceInfo), 5)] []
        [((⟨"m3.medium", ""⟩ : instanceInfo), 2)]).1 =
      [((⟨"m3.medium", "us-east-1a"⟩ : instanceInfo), -3)] := by
  constructor
  · simp [borrowStep, not_le.mpr hv, hl, hge]
  · decide

/-- Witness for C3 at a concrete input. -/
theorem claim_C3_insufficient_pool_witness :
    borrowStep ⟨"m3.medium", "us-east-1a"⟩ (-5)
        ([((⟨"m3.medium", "us-east-1a"⟩ : instanceInfo), -5)],
         [((⟨"m3.medium", ""⟩ : instanceInfo), 2)]) =
      (setk [((⟨"m3.medium", "us-east-1a"⟩ : instanceInfo), -5)]
          ⟨"m3.medium", "us-east-1a"⟩ (-5 + 2),
       erasek [((⟨"m3.medium", ""⟩ : instanceInfo), 2)]
          ⟨(⟨"m3.medium", "us-east-1a"⟩ : instanceInfo).Typ, ""⟩) ∧
    (reconcile [((⟨"m3.medium", "us-east-1a"⟩ : instanceInfo), 5)] []
        [((⟨"m3.medium", ""⟩ : instanceInfo), 2)]).1 =
      [((⟨"m3.medium", "us-east-1a"⟩ : instanceInfo), -3)] :=
  claim_C3_insufficient_pool ⟨"m3.medium", "us-east-1a"⟩ (-5) 2
    [((⟨"m3.medium", "us-east-1a"⟩ : instanceInfo), -5)]
    [((⟨"m3.medium", ""⟩ : instanceInfo), 2)]
    (by decide) (by decide) (by decide) (by decide)

/-- C9: reconcile leaves the running and zone maps exactly as passed for
every input, while the region map can come back genuinely changed (on the
insufficient-pool example its only entry has been deleted). -/
theorem claim_C9_frame (runningInstances azReservations regionReservations : IMap) :
    ((reconcileMaps runningInstances azReservations regionReservations).1 =
        runningInstances ∧
     (reconcileMaps runningInstances azReservations regionReservations).2.1 =
        azReservations) ∧
    (reconcileMaps [((⟨"m3.medium", "us-east-1a"⟩ : instanceInfo), 5)] []
        [((⟨"m3.medium", ""⟩ : instanceInfo), 2)]).2.2 = [] :=
  ⟨⟨rfl, rfl⟩, by decide⟩

/-- Entries surviving a delete were entries before. -/
theorem mem_of_mem_erasek (m : IMap) (k : instanceInfo)
    (p : instanceInfo × Int) (h : p ∈ erasek m k) : p ∈ m := by
  induction m with
  | nil => simp [erasek] at h
  | cons q rest ih =>
    by_cases hq : q.1 = k
    · simp only [erasek, hq, if_true, eq_self_iff_true] at h
      exact List.mem_cons_of_mem _ h
    · simp only [erasek, hq, if_false, List.mem_cons] at h
      rcases h with h | h
      · simp [h]
      · exact List.mem_cons_of_mem _ (ih h)

/-- Entries after a write are old entries or the written pair. -/
theorem mem_of_mem_setk (m : IMap) (k : instanceInfo) (v : Int)
    (p : instanceInfo × Int) (h : p ∈ setk m k v) : p ∈ m ∨ p = (k, v) := by
  induction m with
  | nil =>
    simp only [setk, List.mem_singleton] at h
    exact Or.inr h
  | cons q rest ih =>
    by_cases hq : q.1 = k
    · simp only [setk, hq, if_true, eq_self_iff_true, List.mem_cons] at h
      rcases h with h | h
      · exact Or.inr h
      · exact Or.inl (List.mem_cons_of_mem _ h)
    · simp only [setk, hq, if_false, List.mem_cons] at h
      rcases h with h | h
      · exact Or.inl (by simp [h])
      · rcases ih h with h1 | h1
        · exact Or.inl (List.mem_cons_of_mem _ h1)
        · exact Or.inr h1

/-- The borrowing step keeps all pool values nonnegative. -/
theorem nonnegMap_borrowStep_snd (k : instanceInfo) (v : Int) (s : IMap × IMap)
    (hm : nonnegMap s.2) : nonnegMap (borrowStep k v s).2 := by
  by_cases hv : 0 ≤ v
  · rw [borrowStep_of_nonneg k v s hv]
    exact hm
  · cases hl : lookup s.2 ⟨k.Typ, ""⟩ with
    | none =>
      simp only [borrowStep, hv, if_false, hl]
      exact hm
    | some v2 =>
      by_cases hn : -v ≥ v2
      · simp only [borrowStep, hv, if_false, hl, hn, if_true, eq_self_iff_true]
        exact fun p hp => hm p (mem_of_mem_erasek s.2 _ p hp)
      · simp only [borrowStep, hv, if_false, hl, hn]
        intro p hp
        rcases mem_of_mem_setk s.2 _ _ p hp with h1 | h1
        · exact hm p h1
        · rw [h1]
          dsimp only
          linarith

/-- The borrowing pass keeps all pool values nonnegative. -/
theorem nonnegMap_borrowAll_snd (l : List (instanceInfo × Int)) :
    ∀ s : IMap × IMap, nonnegMap s.2 → nonnegMap (borrowAll l s).2 := by
  induction l with
  | nil => intro s h; exact h
  | cons p rest ih =>
    intro s h
    rw [borrowAll]
    exact ih _ (nonnegMap_borrowStep_snd p.1 p.2 s h)

/-- A key present in the key list looks up to its getv value. -/
theorem lookup_mem_keys_some (m : IMap) (k : instanceInfo)
    (h : k ∈ m.map Prod.fst) : lookup m k = some (getv m k) := by
  induction m with
  | nil => simp at h
  | cons p rest ih =>
    by_cases hp : p.1 = k
    · simp [lookup, getv, hp]
    · simp only [List.map_cons, List.mem_cons] at h
      rcases h with h | h
      · exact absurd h.symm hp
      · have hgv : getv (p :: rest) k = getv rest k := by
          simp [getv, lookup, hp]
        rw [hgv]
        simp only [lookup, hp, if_false]
        exact ih h

/-- C5: a key whose running count is covered by its exact zone-scoped
reservation ends with no negative entry in the reconcile result, whatever
the region pool holds, and the borrowing step for that key's out value is
a no-op (the pool is not drawn down on its behalf). -/
theorem claim_C5_zone_before_region
    (runningInstances azReservations regionReservations : IMap)
    (k : instanceInfo)
    (hnd1 : keysNodup runningInstances) (hnd2 : keysNodup azReservations)
    (hnn3 : nonnegMap regionReservations)
    (hk : getv runningInstances k ≤ getv azReservations k) :
    (∀ x, lookup (reconcile runningInstances azReservations regionReservations).1 k
        = some x → 0 ≤ x) ∧
    (∀ s : IMap × IMap,
      borrowStep k (getv (zonePass runningInstances azReservations) k) s = s) := by
  have hd : 0 ≤ getv (zonePass runningInstances azReservations) k := by
    rw [getv_zonePass runningInstances azReservations hnd2 k]
    linarith
  have hout_nodup : keysNodup (zonePass runningInstances azReservations) :=
    keysNodup_zonePass _ _ hnd1
  have hnonneg_at_k : ∀ p ∈ zonePass runningInstances azReservations,
      p.1 = k → 0 ≤ p.2 := by
    intro p hp hpk
    have hlk := lookup_self_of_nodup _ p hout_nodup hp
    rw [hpk] at hlk
    have hgv : getv (zonePass runningInstances azReservations) k = p.2 := by
      simp [getv, hlk]
    linarith [hgv ▸ hd]
  constructor
  · intro x hx
    have hres : (reconcile runningInstances azReservations regionReservations).1 =
        flushRegion
          (borrowAll (zonePass runningInstances azReservations)
            (zonePass runningInstances azReservations, regionReservations)).2
          (borrowAll (zonePass runningInstances azReservations)
            (zonePass runningInstances azReservations, regionReservations)).1 := rfl
    rw [hres] at hx
    refine lookup_flushRegion_nonneg _ _ k
      (nonnegMap_borrowAll_snd _ _ hnn3) ?_ x hx
    intro y hy
    rw [borrowAll_fst_lookup_of_nonneg _ _ k hnonneg_at_k] at hy
    have hgv : getv (zonePass runningInstances azReservations) k = y := by
      simp [getv, hy]
    linarith [hgv ▸ hd]
  · intro s
    exact borrowStep_of_nonneg k _ s hd

/-- Witness for C5 at a concrete input. -/
theorem claim_C5_zone_before_region_witness :
    (∀ x, lookup (reconcile [((⟨"m3.medium", "us-east-1a"⟩ : instanceInfo), 2)]
        [((⟨"m3.medium", "us-east-1a"⟩ : instanceInfo), 2)]
        [((⟨"m3.medium", ""⟩ : instanceInfo), 7)]).1
        ⟨"m3.medium", "us-east-1a"⟩ = some x → 0 ≤ x) ∧
    (∀ s : IMap × IMap,
      borrowStep ⟨"m3.medium", "us-east-1a"⟩
        (getv (zonePass [((⟨"m3.medium", "us-east-1a"⟩ : instanceInfo), 2)]
          [((⟨"m3.medium", "us-east-1a"⟩ : instanceInfo), 2)])
          ⟨"m3.medium", "us-east-1a"⟩) s = s) :=
  claim_C5_zone_before_region
    [((⟨"m3.medium", "us-east-1a"⟩ : instanceInfo), 2)]
    [((⟨"m3.medium", "us-east-1a"⟩ : instanceInfo), 2)]
    [((⟨"m3.medium", ""⟩ : instanceInfo), 7)]
    ⟨"m3.medium", "us-east-1a"⟩
    (by decide) (by decide) (by decide) (by decide)

/-- C10: zones-populated surplus is never redistributed: any key whose
value after the zone pass is nonnegative keeps exactly that value in the
reconcile result (the borrowing pass skips it and the flush pass only
writes empty-zone keys). -/
theorem claim_C10_no_redistribution
    (runningInstances azReservations regionReservations : IMap)
    (hnd1 : keysNodup runningInstances)
    (hz1 : zonesPopulated runningInstances) (hz2 : zonesPopulated azReservations)
    (hz3 : zonesEmpty regionReservations)
    (k : instanceInfo)
    (hmem : k ∈ (zonePass runningInstances azReservations).map Prod.fst)
    (hge : 0 ≤ getv (zonePass runningInstances azReservations) k) :
    lookup (reconcile runningInstances azReservations regionReservations).1 k =
      some (getv (zonePass runningInstances azReservations) k) := by
  have hkaz : k.AZ ≠ "" := by
    rcases mem_keys_zonePass _ _ k hmem with h1 | h1
    · exact key_az_of_zonesPopulated _ hz1 k h1
    · exact key_az_of_zonesPopulated _ hz2 k h1
  have hout_nodup : keysNodup (zonePass runningInstances azReservations) :=
    keysNodup_zonePass _ _ hnd1
  have hnonneg_at_k : ∀ p ∈ zonePass runningInstances azReservations,
      p.1 = k → 0 ≤ p.2 := by
    intro p hp hpk
    have hlk := lookup_self_of_nodup _ p hout_nodup hp
    rw [hpk] at hlk
    have hgv : getv (zonePass runningInstances azReservations) k = p.2 := by
      simp [getv, hlk]
    linarith [hgv ▸ hge]
  have hres : (reconcile runningInstances azReservations regionReservations).1 =
      flushRegion
        (borrowAll (zonePass runningInstances azReservations)
          (zonePass runningInstances azReservations, regionReservations)).2
        (borrowAll (zonePass runningInstances azReservations)
          (zonePass runningInstances azReservations, regionReservations)).1 := rfl
  rw [hres]
  rw [lookup_flushRegion_ne _ _ k ?_]
  · rw [borrowAll_fst_lookup_of_nonneg _ _ k hnonneg_at_k]
    exact lookup_mem_keys_some _ k hmem
  · intro p hp
    have hpk : p.1 ∈ regionReservations.map Prod.fst :=
      mem_keys_borrowAll_snd _ _ p.1 (List.mem_map_of_mem Prod.fst hp)
    intro he
    exact hkaz (he ▸ key_az_of_zonesEmpty _ hz3 p.1 hpk)

/-- Witness for C10 at a concrete input. -/
theorem claim_C10_no_redistribution_witness :
    lookup (reconcile [((⟨"m3.medium", "us-east-1a"⟩ : instanceInfo), 1)]
        [((⟨"m3.medium", "us-east-1a"⟩ : instanceInfo), 3)]
        [((⟨"m3.medium", ""⟩ : instanceInfo), 4)]).1
      ⟨"m3.medium", "us-east-1a"⟩ =
      some (getv (zonePass [((⟨"m3.medium", "us-east-1a"⟩ : instanceInfo), 1)]
        [((⟨"m3.medium", "us-east-1a"⟩ : instanceInfo), 3)])
        ⟨"m3.medium", "us-east-1a"⟩) :=
  claim_C10_no_redistribution
    [((⟨"m3.medium", "us-east-1a"⟩ : instanceInfo), 1)]
    [((⟨"m3.medium", "us-east-1a"⟩ : instanceInfo), 3)]
    [((⟨"m3.medium", ""⟩ : instanceInfo), 4)]
    (by decide) (by decide) (by decide) (by decide)
    ⟨"m3.medium", "us-east-1a"⟩ (by decide) (by decide)

/-- Uncovered report rows always carry a positive count. -/
theorem deriveReports_fst_pos (m : IMap) (r : reportedInfo)
    (h : r ∈ (deriveReports m).1) : 0 < r.Count := by
  induction m with
  | nil => simp [deriveReports] at h
  | cons p rest ih =>
    by_cases h1 : p.2 < 0
    · simp only [deriveReports, h1, if_true, eq_self_iff_true, List.mem_cons] at h
      rcases h with h | h
      · rw [h]
        dsimp only
        linarith
      · exact ih h
    · by_cases h2 : 0 < p.2
      · simp only [deriveReports, h1, h2, if_true, if_false,
          eq_self_iff_true] at h
        exact ih h
      · simp only [deriveReports, h1, h2, if_false] at h
        exact ih h

/-- Unused report rows always carry a positive count. -/
theorem deriveReports_snd_pos (m : IMap) (r : reportedInfo)
    (h : r ∈ (deriveReports m).2) : 0 < r.Count := by
  induction m with
  | nil => simp [deriveReports] at h
  | cons p rest ih =>
    by_cases h1 : p.2 < 0
    · simp only [deriveReports, h1, if_true, eq_self_iff_true] at h
      exact ih h
    · by_cases h2 : 0 < p.2
      · simp only [deriveReports, h1, h2, if_true, if_false,
          eq_self_iff_true, List.mem_cons] at h
        rcases h with h | h
        · rw [h]
          dsimp only
          exact h2
        · exact ih h
      · simp only [deriveReports, h1, h2, if_false] at h
        exact ih h

/-- Zero-valued entries contribute nothing to the derived reports. -/
theorem deriveReports_filter_nonzero (m : IMap) :
    deriveReports (m.filter (fun p => p.2 ≠ 0)) = deriveReports m := by
  induction m with
  | nil => rfl
  | cons p rest ih =>
    by_cases h0 : p.2 = 0
    · have hfilter : (p :: rest).filter (fun p => p.2 ≠ 0) =
          rest.filter (fun p => p.2 ≠ 0) := by
        simp [List.filter_cons, h0]
      rw [hfilter, ih]
      have h1 : ¬ p.2 < 0 := by rw [h0]; exact lt_irrefl 0
      have h2 : ¬ 0 < p.2 := by rw [h0]; exact lt_irrefl 0
      simp [deriveReports, h1, h2]
    · have hfilter : (p :: rest).filter (fun p => p.2 ≠ 0) =
          p :: rest.filter (fun p => p.2 ≠ 0) := by
        simp [List.filter_cons, h0]
      rw [hfilter]
      by_cases h1 : p.2 < 0
      · simp only [deriveReports, h1, if_true, eq_self_iff_true, ih]
      · by_cases h2 : 0 < p.2
        · simp only [deriveReports, h1, h2, if_true, if_false,
            eq_self_iff_true, ih]
        · exact absurd (le_antisymm (not_lt.mp h2) (not_lt.mp h1)) h0

/-- C4: every reported row of the final result carries a strictly
positive count (so zero-delta keys never appear in either report), and
dropping the zero entries of the reconcile result leaves the derived
reports unchanged. -/
theorem claim_C4_nonzero_entries
    (runningInstances azReservations regionReservations : IMap)
    (r : reportedInfo)
    (h : r ∈ (deriveReports
          (reconcile runningInstances azReservations regionReservations).1).1 ∨
         r ∈ (deriveReports
          (reconcile runningInstances azReservations regionReservations).1).2) :
    0 < r.Count ∧
    deriveReports
        (((reconcile runningInstances azReservations regionReservations).1).filter
          (fun p => p.2 ≠ 0)) =
      deriveReports (reconcile runningInstances azReservations regionReservations).1 := by
  refine ⟨?_, deriveReports_filter_nonzero _⟩
  rcases h with h | h
  · exact deriveReports_fst_pos _ r h
  · exact deriveReports_snd_pos _ r h

/-- Witness for C4 at a concrete input. -/
theorem claim_C4_nonzero_entries_witness :
    0 < (⟨"m3.medium", "us-east-1a", 1⟩ : reportedInfo).Count ∧
    deriveReports
        (((reconcile [((⟨"m3.medium", "us-east-1a"⟩ : instanceInfo), 3)] []
          [((⟨"m3.medium", ""⟩ : instanceInfo), 5)]).1).filter
          (fun p => p.2 ≠ 0)) =
      deriveReports (reconcile [((⟨"m3.medium", "us-east-1a"⟩ : instanceInfo), 3)] []
          [((⟨"m3.medium", ""⟩ : instanceInfo), 5)]).1 :=
  claim_C4_nonzero_entries [((⟨"m3.medium", "us-east-1a"⟩ : instanceInfo), 3)] []
    [((⟨"m3.medium", ""⟩ : instanceInfo), 5)]
    ⟨"m3.medium", "us-east-1a", 1⟩ (Or.inl (by decide))

/-- Classification hits the unknown-scope error whenever some record has
an unrecognized scope (the error names the first such scope). -/
theorem classify_error_of_bad_scope (ris : List riRecord) :
    ∀ (az reg : IMap) (r : riRecord), r ∈ ris →
    r.Scope ≠ "Region" → r.Scope ≠ "Availability Zone" →
    ∃ s, s ≠ "Region" ∧ s ≠ "Availability Zone" ∧
      classifyReservations ris az reg =
        .error ("unknown reservation scope: " ++ quoteGo s) := by
  induction ris with
  | nil => intro az reg r hr _ _; simp at hr
  | cons r0 rest ih =>
    intro az reg r hr h1 h2
    by_cases hs1 : r0.Scope = "Region"
    · have hr' : r ∈ rest := by
        rcases List.mem_cons.mp hr with h | h
        · exact absurd (by rw [h]; exact hs1) h1
        · exact h
      obtain ⟨s, a, b, c⟩ := ih _ _ r hr' h1 h2
      refine ⟨s, a, b, ?_⟩
      simp only [classifyReservations, hs1, if_true, eq_self_iff_true]
      exact c
    · by_cases hs2 : r0.Scope = "Availability Zone"
      · have hr' : r ∈ rest := by
          rcases List.mem_cons.mp hr with h | h
          · exact absurd (by rw [h]; exact hs2) h2
          · exact h
        obtain ⟨s, a, b, c⟩ := ih _ _ r hr' h1 h2
        refine ⟨s, a, b, ?_⟩
        simp only [classifyReservations, hs1, hs2, if_true, if_false,
          eq_self_iff_true]
        exact c
      · exact ⟨r0.Scope, hs1, hs2, by simp [classifyReservations, hs1, hs2]⟩

/-- C6: a reservation record whose scope is neither Region nor
Availability Zone aborts the run with the unknown-scope error: do returns
the error before reconciliation, nothing is written to the output stream,
and the process exits with code 1. -/
theorem claim_C6_unknown_scope_aborts (insts : List instRecord)
    (ris : List riRecord) (r : riRecord) (hr : r ∈ ris)
    (h1 : r.Scope ≠ "Region") (h2 : r.Scope ≠ "Availability Zone") :
    ∃ s, s ≠ "Region" ∧ s ≠ "Availability Zone" ∧
      doPure insts ris = .error ("unknown reservation scope: " ++ quoteGo s) ∧
      mainModel insts ris = ([], 1) := by
  obtain ⟨s, a, b, c⟩ := classify_error_of_bad_scope ris [] [] r hr h1 h2
  refine ⟨s, a, b, ?_, ?_⟩
  · simp only [doPure, c]
  · simp only [mainModel, doPure, c]

/-- Witness for C6 at a concrete input. -/
theorem claim_C6_unknown_scope_aborts_witness :
    ∃ s, s ≠ "Region" ∧ s ≠ "Availability Zone" ∧
      doPure [] [⟨"Custom", "m3.medium", "", 1⟩] =
        .error ("unknown reservation scope: " ++ quoteGo s) ∧
      mainModel [] [⟨"Custom", "m3.medium", "", 1⟩] = ([], 1) :=
  claim_C6_unknown_scope_aborts [] [⟨"Custom", "m3.medium", "", 1⟩]
    ⟨"Custom", "m3.medium", "", 1⟩ (by decide) (by decide) (by decide)

/-- Two-column report rows contain a tab character. -/
theorem tab_mem_row2 (a b : String) : '\t' ∈ (a ++ "\t" ++ b).data := by
  simp only [String.data_append]
  refine List.mem_append.mpr (Or.inl (List.mem_append.mpr (Or.inr ?_)))
  decide

/-- Three-column report rows contain a tab character. -/
theorem tab_mem_row3 (a b c : String) :
    '\t' ∈ (a ++ "\t" ++ b ++ "\t" ++ c).data := by
  simp only [String.data_append]
  refine List.mem_append.mpr (Or.inl (List.mem_append.mpr (Or.inl
    (List.mem_append.mpr (Or.inl (List.mem_append.mpr (Or.inr ?_)))))))
  decide

/-- C8 counterexample: on a run with one uncovered instance the header
line actually written is "On-demand EC2 instances:", and the line
"On-demand instances:" claimed by the spec is not part of the output. -/
theorem claim_C8_header_counterexample :
    doPure [⟨"m3.medium", "us-east-1a"⟩] [] =
      .ok ["On-demand EC2 instances:", "m3.medium\t1\tus-east-1a"] ∧
    ("On-demand instances:" : String) ∉
      ["On-demand EC2 instances:", "m3.medium\t1\tus-east-1a"] := by
  exact ⟨rfl, by decide⟩

/-- C8 (amended): the header "On-demand EC2 instances:" appears in the
rendered output exactly when the uncovered section is non-empty, and the
header "Unused reservations:" exactly when the unused section is
non-empty; an empty section gets no header. -/
theorem claim_C8_amended_headers_iff
    (onDemandInstances unusedReservations : List reportedInfo) :
    (("On-demand EC2 instances:" : String) ∈
        renderLines onDemandInstances unusedReservations ↔
      onDemandInstances ≠ []) ∧
    (("Unused reservations:" : String) ∈
        renderLines onDemandInstances unusedReservations ↔
      unusedReservations ≠ []) := by
  have hrow3 : ∀ (v : reportedInfo) (h : String), '\t' ∉ h.data →
      (v.Typ ++ "\t" ++ toString v.Count ++ "\t" ++ v.AZ) ≠ h := by
    intro v h hh he
    exact hh (congrArg String.data he ▸ tab_mem_row3 v.Typ (toString v.Count) v.AZ)
  have hrow2 : ∀ (v : reportedInfo) (h : String), '\t' ∉ h.data →
      (v.Typ ++ "\t" ++ toString v.Count) ≠ h := by
    intro v h hh he
    exact hh (congrArg String.data he ▸ tab_mem_row2 v.Typ (toString v.Count))
  have hh1 : '\t' ∉ ("On-demand EC2 instances:" : String).data := by decide
  have hh2 : '\t' ∉ ("Unused reservations:" : String).data := by decide
  have hne12 : ("On-demand EC2 instances:" : String) ≠ "Unused reservations:" := by
    decide
  constructor
  · constructor
    · intro hmem hempty
      subst hempty
      by_cases hlen : unusedReservations.length > 0
      · simp only [renderLines, List.length_nil, gt_iff_lt, lt_irrefl, if_false,
          List.map_nil, List.nil_append, hlen, if_true, List.mem_append,
          List.mem_singleton, List.mem_map] at hmem
        rcases hmem with h | ⟨v, _, hv⟩
        · exact hne12 h
        · exact hrow2 v _ hh1 hv
      · have hun : unusedReservations = [] := by
          rcases unusedReservations with _ | ⟨a, l⟩
          · rfl
          · simp at hlen
        subst hun
        simp [renderLines] at hmem
    · intro hne
      have hlen : onDemandInstances.length > 0 := List.length_pos.mpr hne
      simp only [renderLines, hlen, if_true, gt_iff_lt, List.mem_append]
      exact Or.inl (Or.inl (Or.inl (List.mem_singleton.mpr rfl)))
  · constructor
    · intro hmem hempty
      subst hempty
      by_cases hlen : onDemandInstances.length > 0
      · simp only [renderLines, List.length_nil, gt_iff_lt, lt_irrefl, if_false,
          List.map_nil, List.append_nil, hlen, if_true, List.mem_append,
          List.mem_singleton, List.mem_map] at hmem
        rcases hmem with h | ⟨v, _, hv⟩
        · exact hne12 h.symm
        · exact hrow3 v _ hh2 hv
      · have hod : onDemandInstances = [] := by
          rcases onDemandInstances with _ | ⟨a, l⟩
          · rfl
          · simp at hlen
        subst hod
        simp [renderLines] at hmem
    · intro hne
      have hlen : unusedReservations.length > 0 := List.length_pos.mpr hne
      simp only [renderLines, hlen, if_true, gt_iff_lt, List.mem_append]
      exact Or.inl (Or.inr (List.mem_singleton.mpr rfl))

/-- The Boolean comparison of sortByTyp agrees with the String order. -/
theorem lessTyp_iff (a b : reportedInfo) : lessTyp a b = true ↔ a.Typ < b.Typ := by
  rw [lessTyp, decide_eq_true_eq, ← String.lt_iff_toList_lt]

/-- Members of an insertion: the inserted row or an old row. -/
theorem mem_insertRep (x : reportedInfo) (l : List reportedInfo)
    (z : reportedInfo) (h : z ∈ insertRep x l) : z = x ∨ z ∈ l := by
  induction l with
  | nil =>
    simp only [insertRep, List.mem_singleton] at h
    exact Or.inl h
  | cons y ys ih =>
    simp only [insertRep] at h
    cases hc : lessTyp y x with
    | true =>
      rw [if_pos hc] at h
      rcases List.mem_cons.mp h with h1 | h1
      · exact Or.inr (by simp [h1])
      · rcases ih h1 with h2 | h2
        · exact Or.inl h2
        · exact Or.inr (List.mem_cons_of_mem _ h2)
    | false =>
      rw [if_neg (by simp [hc])] at h
      rcases List.mem_cons.mp h with h1 | h1
      · exact Or.inl h1
      · exact Or.inr h1

/-- Insertion preserves sortedness by type. -/
theorem sorted_insertRep (x : reportedInfo) (l : List reportedInfo)
    (h : List.Sorted (fun a b : reportedInfo => a.Typ ≤ b.Typ) l) :
    List.Sorted (fun a b : reportedInfo => a.Typ ≤ b.Typ) (insertRep x l) := by
  induction l with
  | nil => simp [insertRep]
  | cons y ys ih =>
    rw [List.sorted_cons] at h
    simp only [insertRep]
    cases hc : lessTyp y x with
    | true =>
      rw [if_pos rfl, List.sorted_cons]
      refine ⟨?_, ih h.2⟩
      intro z hz
      rcases mem_insertRep x ys z hz with h1 | h1
      · rw [h1]
        exact le_of_lt ((lessTyp_iff y x).mp hc)
      · exact h.1 z h1
    | false =>
      have hxy : x.Typ ≤ y.Typ := by
        refine le_of_not_lt fun hlt => ?_
        rw [(lessTyp_iff y x).mpr hlt] at hc
        exact Bool.noConfusion hc
      rw [if_neg (by simp), List.sorted_cons, List.sorted_cons]
      refine ⟨?_, h.1, h.2⟩
      intro z hz
      rcases List.mem_cons.mp hz with h1 | h1
      · rw [h1]; exact hxy
      · exact le_trans hxy (h.1 z h1)

/-- The stable insertion sort by type sorts. -/
theorem sorted_sortByTyp (l : List reportedInfo) :
    List.Sorted (fun a b : reportedInfo => a.Typ ≤ b.Typ) (sortByTyp l) := by
  induction l with
  | nil => simp [sortByTyp]
  | cons x xs ih => exact sorted_insertRep x _ ih

/-- Inserting a row of type t passes only over rows of strictly smaller
type, so within type t it lands first. -/
theorem insertRep_filter_eq (x : reportedInfo) (l : List reportedInfo)
    (t : String) (hx : x.Typ = t) :
    (insertRep x l).filter (fun r => r.Typ = t) =
      x :: l.filter (fun r => r.Typ = t) := by
  induction l with
  | nil =>
    simp only [insertRep]
    rw [List.filter_cons_of_pos (by simp [hx])]
  | cons y ys ih =>
    simp only [insertRep]
    cases hc : lessTyp y x with
    | true =>
      have hyt : ¬ (y.Typ = t) := by
        rw [← hx]
        exact ne_of_lt ((lessTyp_iff y x).mp hc)
      rw [if_pos rfl, List.filter_cons_of_neg (by simp [hyt]), ih,
        List.filter_cons_of_neg (by simp [hyt])]
    | false =>
      rw [if_neg (by simp), List.filter_cons_of_pos (by simp [hx])]

/-- Inserting a row of another type does not disturb the rows of type t. -/
theorem insertRep_filter_ne (x : reportedInfo) (l : List reportedInfo)
    (t : String) (hx : x.Typ ≠ t) :
    (insertRep x l).filter (fun r => r.Typ = t) =
      l.filter (fun r => r.Typ = t) := by
  induction l with
  | nil =>
    simp only [insertRep]
    rw [List.filter_cons_of_neg (by simp [hx])]
  | cons y ys ih =>
    simp only [insertRep]
    cases hc : lessTyp y x with
    | true =>
      by_cases hyt : y.Typ = t
      · rw [if_pos rfl, List.filter_cons_of_pos (by simp [hyt]), ih,
          List.filter_cons_of_pos (by simp [hyt])]
      · rw [if_pos rfl, List.filter_cons_of_neg (by simp [hyt]), ih,
          List.filter_cons_of_neg (by simp [hyt])]
    | false =>
      rw [if_neg (by simp), List.filter_cons_of_neg (by simp [hx])]

/-- Stability of sortByTyp: the rows of any fixed type appear in the
sorted list exactly in their original order. -/
theorem sortByTyp_filter (l : List reportedInfo) (t : String) :
    (sortByTyp l).filter (fun r => r.Typ = t) =
      l.filter (fun r => r.Typ = t) := by
  induction l with
  | nil => rfl
  | cons x xs ih =>
    simp only [sortByTyp]
    by_cases hx : x.Typ = t
    · rw [insertRep_filter_eq x _ t hx, ih,
        List.filter_cons_of_pos (by simp [hx])]
    · rw [insertRep_filter_ne x _ t hx, ih,
        List.filter_cons_of_neg (by simp [hx])]

/-- C7: both derived report lists are sorted ascending by instance type
after the stable sort, the sort is stable (rows of equal type keep their
original order, stated via filtering by type), and the spec's concrete
type list ["m3.large", "c5.xlarge", "m3.medium"] renders in the order
c5.xlarge, m3.large, m3.medium. -/
theorem claim_C7_sorted_stable :
    (∀ m : IMap,
      List.Sorted (fun a b : reportedInfo => a.Typ ≤ b.Typ)
        (sortByTyp (deriveReports m).1) ∧
      List.Sorted (fun a b : reportedInfo => a.Typ ≤ b.Typ)
        (sortByTyp (deriveReports m).2)) ∧
    (∀ (l : List reportedInfo) (t : String),
      (sortByTyp l).filter (fun r => r.Typ = t) =
        l.filter (fun r => r.Typ = t)) ∧
    sortByTyp [⟨"m3.large", "us-east-1a", 1⟩, ⟨"c5.xlarge", "us-east-1b", 2⟩,
        ⟨"m3.medium", "us-east-1c", 3⟩] =
      [⟨"c5.xlarge", "us-east-1b", 2⟩, ⟨"m3.large", "us-east-1a", 1⟩,
       ⟨"m3.medium", "us-east-1c", 3⟩] :=
  ⟨fun _ => ⟨sorted_sortByTyp _, sorted_sortByTyp _⟩,
   fun l t => sortByTyp_filter l t, by decide⟩

end EC2Res
